import Mathlib

/-!
Shallow embedding of `src/index.js` (a scheduled worker that stamps a
"本周记录:" marker line at the tail of every repository README) together
with proofs and refutations of the specification's testable properties.

Strings are modelled by Lean `String` (a wrapper around `List Char`);
the line-level work is done on `List Char` so that the JavaScript string
primitives (`split`, `join`, `replace`, `trim`, `startsWith`) can be
embedded by structural recursion with exactly their semantics.
-/

deriving instance DecidableEq for Except

namespace WeeklyStamp

/-- Marker token, source line 3: `const STAMP_PREFIX = "本周记录:"`. -/
def STAMP_PREFIX : String := "本周记录:"

/-- A line of a document, as a list of characters (never containing `'\n'`
when produced by `splitNl`). -/
abbrev Line := List Char

/-- Embeds `content.replace(/\r\n/g, "\n")` (source line 192): replace every
occurrence of CRLF by LF, scanning left to right, non-overlapping. -/
def normChars : List Char → List Char
  | [] => []
  | [c] => [c]
  | c :: c2 :: rest =>
    if c = '\r' ∧ c2 = '\n' then '\n' :: normChars rest
    else c :: normChars (c2 :: rest)

/-- Embeds JavaScript `s.split("\n")` (source line 192).  Like the
JavaScript original it never returns an empty list: splitting the empty
string yields `[[]]`, and a trailing separator yields a trailing `[]`. -/
def splitNl : List Char → List Line
  | [] => [[]]
  | c :: rest =>
    if c = '\n' then [] :: splitNl rest
    else
      match splitNl rest with
      | [] => [[c]]
      | p :: ps => (c :: p) :: ps

/-- Embeds JavaScript `lines.join("\n")` (source line 212). -/
def joinNl : List Line → List Char
  | [] => []
  | [l] => l
  | l :: ls => l ++ '\n' :: joinNl ls

/-- Embeds `line.trim() === ""` (source line 200): the line consists of
whitespace characters only.  (JavaScript `trim` strips the Unicode
whitespace class; documents here use the common subset covered by
`Char.isWhitespace`.) -/
def isBlankLine (l : Line) : Bool := l.all (fun c => c.isWhitespace)

/-- Embeds `line.startsWith(STAMP_PREFIX)` (source line 205). -/
def isMarkerLine (l : Line) : Bool := STAMP_PREFIX.data.isPrefixOf l

/-- Embeds the backward scan of source lines 198-202 on the *reversed*
line list: the first non-blank entry of the reversed list is
`lines[lastIndex]`; `none` means the scan ran past the front
(`lastIndex < 0`). -/
def findLastNonBlank : List Line → Option Line
  | [] => none
  | l :: rest => if isBlankLine l then findLastNonBlank rest else some l

/-- Embeds the in-place assignment `lines[lastIndex] = stampLine`
(source line 206) on the *reversed* line list: replace its first
non-blank entry. -/
def replaceLastNonBlank (stamp : Line) : List Line → List Line
  | [] => []
  | l :: rest =>
    if isBlankLine l then l :: replaceLastNonBlank stamp rest
    else stamp :: rest

/-- The line-level body of `applyStamp` (source lines 198-210): if the last
non-blank line starts with the marker token, replace it in place;
otherwise push the stamp line at the end of the array. -/
def patchLines (stamp : Line) (lines : List Line) : List Line :=
  match findLastNonBlank lines.reverse with
  | some l =>
    if isMarkerLine l then (replaceLastNonBlank stamp lines.reverse).reverse
    else lines ++ [stamp]
  | none => lines ++ [stamp]

/-- Embeds `applyStamp` (source lines 191-213), including the
`lines.length === 0` guard of line 194 — which, exactly as in JavaScript,
is dead code because `split` never returns an empty array. -/
def applyStamp (content stampLine : String) : String :=
  let lines := splitNl (normChars content.data)
  if lines.length = 0 then ⟨stampLine.data ++ ['\n']⟩
  else ⟨joinNl (patchLines stampLine.data lines) ++ ['\n']⟩

/-- Iterated stamping: a sequence of labels applied in succession. -/
def applyStamps (d : String) (labels : List String) : String :=
  labels.foldl applyStamp d

/-- Number of lines of a document that start with the marker token. -/
def countMarkerLines (s : String) : Nat :=
  ((splitNl s.data).filter isMarkerLine).length

/-! ### Calendar model (`calcThisWeekStamp`, `getISOWeek`, source lines 59-94)

Instants are modelled by their UTC calendar day as a count of days since
1970-01-01 (the JavaScript epoch).  Only `getUTCDay` / `getUTCFullYear` /
`getUTCMonth` / `getUTCDate` / `setUTCDate` and millisecond differences of
UTC midnights are used by the source, all of which are functions of that
day count.  Conversions between day counts and civil dates follow the
standard proleptic-Gregorian algorithms. -/

/-- A UTC calendar date. -/
structure CivilDate where
  year : Int
  month : Nat
  day : Nat
deriving DecidableEq, Repr

/-- Civil date of an epoch-day count (proleptic Gregorian calendar),
embedding `getUTCFullYear` / `getUTCMonth() + 1` / `getUTCDate`. -/
def civilFromDays (z0 : Int) : CivilDate :=
  let z := z0 + 719468
  let era := z.fdiv 146097
  let doe := (z - era * 146097).toNat
  let yoe := (doe - doe / 1460 + doe / 36524 - doe / 146096) / 365
  let y := (yoe : Int) + era * 400
  let doy := doe - (365 * yoe + yoe / 4 - yoe / 100)
  let mp := (5 * doy + 2) / 153
  let d := doy - (153 * mp + 2) / 5 + 1
  let m := if mp < 10 then mp + 3 else mp - 9
  { year := if m ≤ 2 then y + 1 else y, month := m, day := d }

/-- Epoch-day count of a civil date, embedding `Date.UTC(y, m-1, d)`
divided by 86400000. -/
def daysFromCivil (y : Int) (m d : Nat) : Int :=
  let y' := if m ≤ 2 then y - 1 else y
  let era := y'.fdiv 400
  let yoe := (y' - era * 400).toNat
  let doy := (153 * (m + (if 2 < m then 0 else 12) - 3) + 2) / 5 + d - 1
  let doe := yoe * 365 + yoe / 4 - yoe / 100 + doy
  era * 146097 + (doe : Int) - 719468

/-- Embeds `date.getUTCDay()`: 0 = Sunday, ..., 6 = Saturday.
1970-01-01 (epoch day 0) was a Thursday (= 4). -/
def jsGetUTCDay (epochDay : Int) : Int := (epochDay + 4) % 7

/-- Embeds source lines 63-67: `diff = (7 - day) % 7`, then
`sunday.setUTCDate(sunday.getUTCDate() + diff)`.  For `day` in `0..6` the
JavaScript remainder agrees with `Int.emod`. -/
def sundayOfToday (todayEpochDay : Int) : Int :=
  todayEpochDay + (7 - jsGetUTCDay todayEpochDay) % 7

/-- Result record of `getISOWeek` (source line 93). -/
structure ISOWeekInfo where
  isoYear : Int
  isoWeek : Int
deriving DecidableEq, Repr

/-- Embeds `getISOWeek` (source lines 83-94).  The source rebuilds a UTC
midnight from the argument's year/month/day; on an epoch-day count that
round trip is the identity.  `Math.ceil((diff + 1) / 7)` on the integer
day difference `diff` is the floor of `(diff + 1 + 6) / 7`. -/
def getISOWeek (epochDay : Int) : ISOWeekInfo :=
  let w := jsGetUTCDay epochDay
  let dayNum := if w = 0 then 7 else w
  let thursday := epochDay + 4 - dayNum
  let isoYear := (civilFromDays thursday).year
  let yearStart := daysFromCivil isoYear 1 1
  { isoYear := isoYear, isoWeek := (thursday - yearStart + 1 + 6).fdiv 7 }

/-- Embeds `String(n).padStart(2, "0")` for the month/day components
(source lines 70-71), which are always in `1..31`. -/
def pad2 (n : Nat) : String :=
  if n < 10 then "0" ++ toString n else toString n

/-- Result record of `calcThisWeekStamp` (source line 77). -/
structure StampInfo where
  sundayStr : String
  isoYear : Int
  isoWeek : Int
  stampText : String
deriving DecidableEq, Repr

/-- Embeds `calcThisWeekStamp` (source lines 59-78), as a function of the
current UTC calendar day. -/
def calcThisWeekStamp (todayEpochDay : Int) : StampInfo :=
  let sunday := sundayOfToday todayEpochDay
  let c := civilFromDays sunday
  let sundayStr := toString c.year ++ "-" ++ pad2 c.month ++ "-" ++ pad2 c.day
  let iso := getISOWeek sunday
  { sundayStr := sundayStr
    isoYear := iso.isoYear
    isoWeek := iso.isoWeek
    stampText := STAMP_PREFIX ++ " " ++ sundayStr ++ " · " ++
      toString iso.isoYear ++ "年第" ++ toString iso.isoWeek ++ "周" }

/-! ### Document updater, orchestrator and repository lister
(source lines 23-53, 99-127, 132-186)

The HTTP exchanges are abstracted at their interface boundary: the README
fetch result, the write result and the page contents are inputs, and the
write request the code would send is part of the output.  Base64 transport
encoding round-trips text exactly, so document contents are modelled as
the decoded text. -/

/-- A repository reference: `repo.owner.login` and `repo.name`
(source lines 35-36). -/
structure RepoRef where
  ownerLogin : String
  name : String
deriving DecidableEq, Repr

/-- Outcome of the README fetch of source lines 134-153: HTTP 404, another
failure (status and body), or the document (version token `sha`, `path`,
and its base64-decoded text). -/
inductive ReadmeFetch
  | notFound
  | failed (status : Nat) (body : String)
  | found (sha : String) (path : String) (content : String)
deriving DecidableEq, Repr

/-- The PUT request body assembled on source lines 163-177 (its `content`
field holds the text that the source base64-encodes). -/
structure WriteReq where
  path : String
  message : String
  content : String
  sha : String
deriving DecidableEq, Repr

/-- Embeds `updateReadmeForRepo` (source lines 132-186).  Returns either a
thrown error message, or the `updated?` boolean together with the write
request issued (`none` when no write was issued). -/
def updateReadmeForRepo (readmeRes : ReadmeFetch) (stampInfo : StampInfo)
    (writeRes : Except (Nat × String) Unit) :
    Except String (Bool × Option WriteReq) :=
  match readmeRes with
  | .notFound => .ok (false, none)
  | .failed status body =>
    .error ("获取 README 失败: " ++ toString status ++ " " ++ body)
  | .found sha path originalContent =>
    let newContent := applyStamp originalContent stampInfo.stampText
    if newContent = originalContent then .ok (false, none)
    else
      match writeRes with
      | .error (status, body) =>
        .error ("更新 README 失败: " ++ toString status ++ " " ++ body)
      | .ok _ =>
        .ok (true, some { path := path
                          message := "chore: update weekly stamp (" ++ stampInfo.sundayStr ++ ")"
                          content := newContent
                          sha := sha })

/-- Result of one `updateReadmeForRepo` call as seen by the orchestrator's
`try`/`catch` (source lines 38-50): either the returned boolean or the
thrown error, already converted by `String(err)`. -/
inductive UpdateResult
  | ok (updated : Bool)
  | thrown (msg : String)
deriving DecidableEq, Repr

/-- One entry of the summary array (source lines 40-49); `err` is the
optional `error` field. -/
structure SummaryEntry where
  repo : String
  status : String
  err : Option String
deriving DecidableEq, Repr

/-- The summary entry pushed for one repository (source lines 40-49). -/
def summaryEntryOf (r : RepoRef) (res : UpdateResult) : SummaryEntry :=
  match res with
  | .ok true => { repo := r.ownerLogin ++ "/" ++ r.name, status := "updated", err := none }
  | .ok false => { repo := r.ownerLogin ++ "/" ++ r.name, status := "skipped", err := none }
  | .thrown e => { repo := r.ownerLogin ++ "/" ++ r.name, status := "error", err := some e }

/-- Embeds the `for` loop of source lines 34-51: one entry per repository
in order, the `catch` converting a thrown error into an `"error"` entry
and the loop continuing. -/
def summarize (updater : RepoRef → UpdateResult) : List RepoRef → List SummaryEntry
  | [] => []
  | r :: rest => summaryEntryOf r (updater r) :: summarize updater rest

/-- Embeds `updateAllRepos` (source lines 23-54): throws when the token is
missing, propagates a repository-listing failure, and otherwise returns
`{ stampInfo, summary }`. -/
def updateAllRepos (token : Option String) (todayEpochDay : Int)
    (fetchResult : Except String (List RepoRef))
    (updater : RepoRef → UpdateResult) :
    Except String (StampInfo × List SummaryEntry) :=
  match token with
  | none => .error "缺少 GITHUB_TOKEN，请在 Cloudflare Workers 中配置 Secret。"
  | some _ =>
    match fetchResult with
    | .error e => .error e
    | .ok repos => .ok (calcThisWeekStamp todayEpochDay, summarize updater repos)

/-- Fixed page size, source line 101: `const perPage = 100`. -/
def perPage : Nat := 100

/-- Embeds the `while (true)` loop of `fetchAllRepos` (source lines
104-124).  `pageFn` abstracts one paged GitHub request: either a non-OK
response (status and body) or the parsed batch.  The loop has no bound in
the source; `fuel` bounds the number of iterations modelled, and `none`
means the fuel ran out before the loop broke. -/
def fetchLoop (pageFn : Nat → Except (Nat × String) (List RepoRef)) :
    Nat → Nat → List RepoRef → Option (Except (Nat × String) (List RepoRef))
  | 0, _, _ => none
  | fuel + 1, page, acc =>
    match pageFn page with
    | .error e => some (.error e)
    | .ok batch =>
      if batch.length < perPage then some (.ok (acc ++ batch))
      else fetchLoop pageFn fuel (page + 1) (acc ++ batch)

/-- Embeds `fetchAllRepos` (source lines 99-127): start at page 1 with an
empty accumulator. -/
def fetchAllRepos (pageFn : Nat → Except (Nat × String) (List RepoRef))
    (fuel : Nat) : Option (Except (Nat × String) (List RepoRef)) :=
  fetchLoop pageFn fuel 1 []

/-- The batch a page request delivered (empty for a failed page; used only
to state the concatenation of received pages). -/
def pageBatch (pageFn : Nat → Except (Nat × String) (List RepoRef)) (j : Nat) :
    List RepoRef :=
  match pageFn j with
  | .ok b => b
  | .error _ => []

/-- Concatenation of the batches of pages `1, ..., k` in request order. -/
def pagesConcat (pageFn : Nat → Except (Nat × String) (List RepoRef)) (k : Nat) :
    List RepoRef :=
  (List.range' 1 k).flatMap (pageBatch pageFn)

/-- A two-page listing used to witness the pagination theorem: page 1 is
full, every later page holds a single repository. -/
def witnessPageFn (j : Nat) : Except (Nat × String) (List RepoRef) :=
  if j = 1 then .ok (List.replicate 100 ⟨"o", "r"⟩) else .ok [⟨"o", "r2"⟩]

/-! ### Invariant predicates used to settle the single-marker claim -/

/-- Read back to front, a line list ends (up to blank lines) in exactly
one marker line, and no line before that is a marker line. -/
inductive TailMarkerRev : List Line → Prop
  | found (m : Line) (rest : List Line) : isMarkerLine m = true →
      (∀ p ∈ rest, isMarkerLine p = false) → TailMarkerRev (m :: rest)
  | blank (b : Line) (rest : List Line) : isBlankLine b = true →
      TailMarkerRev rest → TailMarkerRev (b :: rest)

/-- Drop one trailing carriage return from a line.  When newline-free
lines are joined with `"\n"` and re-normalized, a line that ends in CR
forms a CRLF with the following separator and loses exactly that CR;
`chopCR` is that effect on one line. -/
def chopCR : Line → Line
  | [] => []
  | [c] => if c = '\r' then [] else [c]
  | c :: c2 :: rest => c :: chopCR (c2 :: rest)

/-- A stamped document's line list: nonempty, newline-free pieces whose
last non-blank line is the unique marker line. -/
def GoodLines (ls : List Line) : Prop :=
  ls ≠ [] ∧ (∀ p ∈ ls, '\n' ∉ p) ∧ TailMarkerRev ls.reverse

/-- A stamped document: some good line list joined with newlines plus a
final newline. -/
def GoodDoc (s : String) : Prop :=
  ∃ ls : List Line, s.data = joinNl ls ++ ['\n'] ∧ GoodLines ls

end WeeklyStamp

namespace WeeklyStamp

/-! ### Claims C1-C5: the marker patcher -/

/-- C1: the claim states `applyStamp (applyStamp d L) L = applyStamp d L`
for every document and label.  The code violates it: because JavaScript
`split` keeps a trailing empty piece and the function returns
`lines.join("\n") + "\n"`, each application appends one extra newline.
At `d = ""`, `L = "本周记录: x"` the second application differs from the
first by a trailing newline. -/
theorem applyStamp_double_apply_adds_newline :
    applyStamp (applyStamp "" "本周记录: x") "本周记录: x"
        = applyStamp "" "本周记录: x" ++ "\n"
      ∧ applyStamp (applyStamp "" "本周记录: x") "本周记录: x"
        ≠ applyStamp "" "本周记录: x" := by
  decide

/-- C2: the claim states that when the README's existing marker line
already equals the computed label, `updateReadmeForRepo` issues no write
and reports the skipped outcome.  The code violates it: the patched
content is the original plus one extra trailing newline, never
byte-identical, so a write is issued and `true` (updated) is returned.
Shown at the stamp computed for 2024-01-01 (epoch day 19723) and a README
whose marker line equals exactly that stamp. -/
theorem updateReadmeForRepo_writes_when_marker_equal :
    updateReadmeForRepo
        (.found "abc123" "README.md" "hello\n本周记录: 2024-01-07 · 2024年第1周\n")
        (calcThisWeekStamp 19723) (.ok ())
      = .ok (true, some
          { path := "README.md"
            message := "chore: update weekly stamp (2024-01-07)"
            content := "hello\n本周记录: 2024-01-07 · 2024年第1周\n\n"
            sha := "abc123" })
      ∧ applyStamp "hello\n本周记录: 2024-01-07 · 2024年第1周\n"
          (calcThisWeekStamp 19723).stampText
        = "hello\n本周记录: 2024-01-07 · 2024年第1周\n" ++ "\n" := by
  decide

/-- C3: the claim states `applyStamp "" L = L ++ "\n"`.  The guard
`lines.length === 0` meant to produce that result is dead code —
JavaScript `"".split("\n")` is `[""]`, not `[]` — so the empty document
falls through to the append branch and the result carries a leading
newline: `applyStamp "" L = "\n" ++ L ++ "\n"`. -/
theorem applyStamp_empty_doc_behavior :
    applyStamp "" "本周记录: x" = "\n" ++ "本周记录: x" ++ "\n"
      ∧ applyStamp "" "本周记录: x" ≠ "本周记录: x" ++ "\n" := by
  decide

/-- C4 counterexample: the claimed equality
`applyStamp "line1\nline2\n" L = "line1\nline2\n" ++ L ++ "\n"`
fails at `L = "本周记录: x"`: the trailing empty piece kept by `split`
becomes a blank line in front of the appended label. -/
theorem applyStamp_append_example_counterexample :
    applyStamp "line1\nline2\n" "本周记录: x"
      ≠ "line1\nline2\n" ++ "本周记录: x" ++ "\n" := by
  decide

/-- C4 amended: for every label `L`, appending to `"line1\nline2\n"`
yields `"line1\nline2\n\n" ++ L ++ "\n"` — the label is appended after
the empty line arising from the document's final newline, and the result
ends with exactly one newline after the label. -/
theorem applyStamp_append_example_amended (L : String) :
    applyStamp "line1\nline2\n" L = "line1\nline2\n\n" ++ L ++ "\n" := rfl

/-- C5 counterexample: the claimed equality
`applyStamp ("line1\n" ++ STAMP_PREFIX ++ " old\n") L = "line1\n" ++ L ++ "\n"`
fails at `L = "本周记录: new"`: the result carries a second trailing
newline. -/
theorem applyStamp_replace_example_counterexample :
    applyStamp ("line1\n" ++ STAMP_PREFIX ++ " old\n") "本周记录: new"
      ≠ "line1\n" ++ "本周记录: new" ++ "\n" := by
  decide

/-- C5 amended: for every label `L`, replacing the marker line of
`"line1\n本周记录: old\n"` yields `"line1\n" ++ L ++ "\n\n"` — the marker
line is replaced in place (the split line array keeps its length), but
the result ends with two newlines, one more than the input had. -/
theorem applyStamp_replace_example_amended (L : String) :
    applyStamp ("line1\n" ++ STAMP_PREFIX ++ " old\n") L
        = "line1\n" ++ L ++ "\n\n"
      ∧ (patchLines L.data (splitNl (normChars ("line1\n" ++ STAMP_PREFIX ++ " old\n").data))).length
        = (splitNl (normChars ("line1\n" ++ STAMP_PREFIX ++ " old\n").data)).length := by
  constructor
  · have h : applyStamp ("line1\n" ++ STAMP_PREFIX ++ " old\n") L
        = ⟨("line1".data ++ '\n' :: (L.data ++ ['\n'])) ++ ['\n']⟩ := rfl
    rw [h]
    apply congrArg String.mk
    simp [List.append_assoc]
  · rfl

/-! ### Claim C8: the week-stamp calculator -/

/-- C8: 2024-01-01 is epoch day 19723 and a Monday; the computed Sunday is
2024-01-07 in ISO year 2024, week 1.  2024-12-31 is epoch day 20088 and a
Tuesday; the computed Sunday is 2025-01-05 in ISO year 2025, week 1.  In
general the computed Sunday has weekday 0, lies within six days of today,
equals today exactly when today is a Sunday, and is strictly later
otherwise. -/
theorem calcThisWeekStamp_iso_week_correct :
    (daysFromCivil 2024 1 1 = 19723 ∧ jsGetUTCDay 19723 = 1
      ∧ (calcThisWeekStamp 19723).sundayStr = "2024-01-07"
      ∧ (calcThisWeekStamp 19723).isoYear = 2024
      ∧ (calcThisWeekStamp 19723).isoWeek = 1)
    ∧ (daysFromCivil 2024 12 31 = 20088 ∧ jsGetUTCDay 20088 = 2
      ∧ (calcThisWeekStamp 20088).sundayStr = "2025-01-05"
      ∧ (calcThisWeekStamp 20088).isoYear = 2025
      ∧ (calcThisWeekStamp 20088).isoWeek = 1)
    ∧ ∀ t : Int, jsGetUTCDay (sundayOfToday t) = 0
      ∧ t ≤ sundayOfToday t ∧ sundayOfToday t ≤ t + 6
      ∧ (jsGetUTCDay t = 0 → sundayOfToday t = t)
      ∧ (jsGetUTCDay t ≠ 0 → t < sundayOfToday t) := by
  refine ⟨by decide, by decide, ?_⟩
  intro t
  simp only [sundayOfToday, jsGetUTCDay]
  omega

/-! ### Claim C9: the orchestrator -/

/-- The `for` loop of source lines 34-51 produces exactly the entry made
from each repository's own update result, in listing order. -/
theorem summarize_eq_map (updater : RepoRef → UpdateResult) (repos : List RepoRef) :
    summarize updater repos = repos.map (fun r => summaryEntryOf r (updater r)) := by
  induction repos with
  | nil => rfl
  | cons r rest ih => simp [summarize, ih]

/-- C9: with the token present and the listing succeeded, the run returns
(never throws) a summary holding exactly one entry per repository in
listing order, each determined by that repository's own update result
alone.  In the concrete three-repository scenario where the second write
fails with a conflict, the summary has three entries, the second marked
`"error"` and the first and third reflecting their own outcomes. -/
theorem updateAllRepos_partial_failure_isolation :
    (∀ (tok : String) (today : Int) (repos : List RepoRef)
        (updater : RepoRef → UpdateResult),
      updateAllRepos (some tok) today (.ok repos) updater
          = .ok (calcThisWeekStamp today,
              repos.map (fun r => summaryEntryOf r (updater r)))
        ∧ (summarize updater repos).length = repos.length)
    ∧ summarize
        (fun r => if r.name = "b" then .thrown "Error: 更新 README 失败: 409 conflict"
          else if r.name = "a" then .ok true else .ok false)
        [⟨"o", "a"⟩, ⟨"o", "b"⟩, ⟨"o", "c"⟩]
      = [⟨"o/a", "updated", none⟩,
         ⟨"o/b", "error", some "Error: 更新 README 失败: 409 conflict"⟩,
         ⟨"o/c", "skipped", none⟩] := by
  constructor
  · intro tok today repos updater
    constructor
    · simp only [updateAllRepos, summarize_eq_map]
    · rw [summarize_eq_map, List.length_map]
  · decide

/-! ### Claim C10: the repository lister -/

/-- Loop invariant of `fetchLoop`, success case: if `m` consecutive pages
starting at `start` are full and page `start + m` is short, the loop
returns the accumulator followed by the batches of pages
`start, ..., start + m` in request order. -/
theorem fetchLoop_ok_spec (pageFn : Nat → Except (Nat × String) (List RepoRef))
    (m : Nat) :
    ∀ (start : Nat) (acc : List RepoRef),
      (∀ j, start ≤ j → j < start + m → ∃ b, pageFn j = .ok b ∧ b.length = perPage) →
      ∀ b, pageFn (start + m) = .ok b → b.length < perPage →
        fetchLoop pageFn (m + 1) start acc
          = some (.ok (acc ++ (List.range' start (m + 1)).flatMap (pageBatch pageFn))) := by
  induction m with
  | zero =>
    intro start acc _ b hb hshort
    simp only [Nat.add_zero] at hb
    simp [fetchLoop, hb, hshort, pageBatch, List.range'_succ]
  | succ m ih =>
    intro start acc hfull b hb hshort
    obtain ⟨b0, hb0, hlen0⟩ := hfull start (Nat.le_refl _) (by omega)
    have hnotshort : ¬ b0.length < perPage := by omega
    have hb' : pageFn (start + 1 + m) = .ok b := by
      rw [show start + 1 + m = start + (m + 1) by omega]
      exact hb
    have hfull' : ∀ j, start + 1 ≤ j → j < start + 1 + m →
        ∃ c, pageFn j = .ok c ∧ c.length = perPage := by
      intro j h1 h2
      exact hfull j (by omega) (by omega)
    calc fetchLoop pageFn (m + 1 + 1) start acc
        = fetchLoop pageFn (m + 1) (start + 1) (acc ++ b0) := by
          simp [fetchLoop, hb0, hnotshort]
      _ = some (.ok ((acc ++ b0) ++
            (List.range' (start + 1) (m + 1)).flatMap (pageBatch pageFn))) :=
          ih (start + 1) (acc ++ b0) hfull' b hb' hshort
      _ = some (.ok (acc ++ (List.range' start (m + 1 + 1)).flatMap (pageBatch pageFn))) := by
          conv_rhs => rw [List.range'_succ, List.flatMap_cons]
          rw [show pageBatch pageFn start = b0 from by simp [pageBatch, hb0],
            List.append_assoc]

/-- Loop invariant of `fetchLoop`, failure case: if `m` consecutive pages
starting at `start` are full and page `start + m` fails, the loop raises
that page's status and body and returns no list. -/
theorem fetchLoop_error_spec (pageFn : Nat → Except (Nat × String) (List RepoRef))
    (m : Nat) :
    ∀ (start : Nat) (acc : List RepoRef),
      (∀ j, start ≤ j → j < start + m → ∃ b, pageFn j = .ok b ∧ b.length = perPage) →
      ∀ e, pageFn (start + m) = .error e →
        fetchLoop pageFn (m + 1) start acc = some (.error e) := by
  induction m with
  | zero =>
    intro start acc _ e he
    simp only [Nat.add_zero] at he
    simp [fetchLoop, he]
  | succ m ih =>
    intro start acc hfull e he
    obtain ⟨b0, hb0, hlen0⟩ := hfull start (Nat.le_refl _) (by omega)
    have hnotshort : ¬ b0.length < perPage := by omega
    have he' : pageFn (start + 1 + m) = .error e := by
      rw [show start + 1 + m = start + (m + 1) by omega]
      exact he
    have hfull' : ∀ j, start + 1 ≤ j → j < start + 1 + m →
        ∃ c, pageFn j = .ok c ∧ c.length = perPage := by
      intro j h1 h2
      exact hfull j (by omega) (by omega)
    calc fetchLoop pageFn (m + 1 + 1) start acc
        = fetchLoop pageFn (m + 1) (start + 1) (acc ++ b0) := by
          simp [fetchLoop, hb0, hnotshort]
      _ = some (.error e) := ih (start + 1) (acc ++ b0) hfull' e he'

/-- C10: pages are requested with the fixed page size starting from
page 1; if pages `1, ..., k-1` are full and page `k` returns a short
batch, the listing stops at page `k` and returns the concatenation of all
received pages in request order; if instead page `k` fails, an error
carrying that page's status and body is raised and no repository list is
returned. -/
theorem fetchAllRepos_pagination
    (pageFn : Nat → Except (Nat × String) (List RepoRef)) (k : Nat)
    (hk : 1 ≤ k)
    (hfull : ∀ j, 1 ≤ j → j < k → ∃ b, pageFn j = .ok b ∧ b.length = perPage) :
    (∀ b, pageFn k = .ok b → b.length < perPage →
      fetchAllRepos pageFn k = some (.ok (pagesConcat pageFn k)))
    ∧ (∀ s body, pageFn k = .error (s, body) →
      fetchAllRepos pageFn k = some (.error (s, body))) := by
  obtain ⟨m, rfl⟩ : ∃ m, k = m + 1 := ⟨k - 1, by omega⟩
  have hstart : 1 + m = m + 1 := by omega
  constructor
  · intro b hb hshort
    have := fetchLoop_ok_spec pageFn m 1 []
      (fun j h1 h2 => hfull j h1 (by omega)) b (by rw [hstart]; exact hb) hshort
    simpa [fetchAllRepos, pagesConcat] using this
  · intro s body he
    have := fetchLoop_error_spec pageFn m 1 []
      (fun j h1 h2 => hfull j h1 (by omega)) (s, body) (by rw [hstart]; exact he)
    simpa [fetchAllRepos] using this

/-! ### Line-level lemmas about `splitNl`, `joinNl` and the patch body -/

/-- `split` never returns an empty array (which is why the
`lines.length === 0` branch of source line 194 is dead code). -/
theorem splitNl_ne_nil : ∀ l : List Char, splitNl l ≠ [] := by
  intro l
  cases l with
  | nil => simp [splitNl]
  | cons c rest =>
    simp only [splitNl]
    split
    · simp
    · cases h : splitNl rest <;> simp

/-- Pieces produced by `splitNl` contain no newline character. -/
theorem not_nl_of_mem_splitNl : ∀ (l : List Char) (p : Line), p ∈ splitNl l → '\n' ∉ p := by
  intro l
  induction l with
  | nil =>
    intro p hp
    simp [splitNl] at hp
    simp [hp]
  | cons c rest ih =>
    intro p hp
    simp only [splitNl] at hp
    by_cases hc : c = '\n'
    · rw [if_pos hc] at hp
      rcases List.mem_cons.mp hp with h | h
      · simp [h]
      · exact ih p h
    · rw [if_neg hc] at hp
      cases hsp : splitNl rest with
      | nil => exact absurd hsp (splitNl_ne_nil rest)
      | cons q qs =>
        rw [hsp] at hp
        rcases List.mem_cons.mp hp with h | h
        · subst h
          intro hmem
          rcases List.mem_cons.mp hmem with h' | h'
          · exact hc h'.symm
          · exact ih q (by rw [hsp]; exact List.mem_cons_self q qs) h'
        · exact ih p (by rw [hsp]; exact List.mem_cons_of_mem q h)

/-- Splitting a newline-free piece followed by a newline peels off exactly
that piece. -/
theorem splitNl_append_nl : ∀ p : Line, '\n' ∉ p →
    ∀ rest, splitNl (p ++ '\n' :: rest) = p :: splitNl rest := by
  intro p
  induction p with
  | nil => intro _ rest; simp [splitNl]
  | cons c cs ih =>
    intro h rest
    have hc : ¬ c = '\n' := fun hh => h (by simp [hh])
    have hcs : '\n' ∉ cs := fun hm => h (List.mem_cons_of_mem c hm)
    simp only [List.cons_append, splitNl, if_neg hc]
    rw [show cs.append ('\n' :: rest) = cs ++ '\n' :: rest from rfl, ih hcs rest]

/-- `split (join ls ++ "\n")` recovers the pieces `ls` plus the trailing
empty piece, provided the pieces are newline-free. -/
theorem splitNl_joinNl : ∀ ls : List Line, ls ≠ [] → (∀ p ∈ ls, '\n' ∉ p) →
    splitNl (joinNl ls ++ ['\n']) = ls ++ [[]]
  | [], h, _ => absurd rfl h
  | [l], _, hnl => by
    rw [show joinNl [l] = l from rfl]
    rw [show (['\n'] : List Char) = '\n' :: [] from rfl]
    rw [splitNl_append_nl l (hnl l (by simp)) []]
    rfl
  | l :: l2 :: ls, _, hnl => by
    rw [show joinNl (l :: l2 :: ls) = l ++ '\n' :: joinNl (l2 :: ls) from rfl]
    rw [List.append_assoc, List.cons_append]
    rw [splitNl_append_nl l (hnl l (by simp)) (joinNl (l2 :: ls) ++ ['\n'])]
    rw [splitNl_joinNl (l2 :: ls) (by simp) (fun p hp => hnl p (List.mem_cons_of_mem l hp))]
    rfl

/-- The in-place replacement keeps the array length. -/
theorem length_replaceLastNonBlank (stamp : Line) :
    ∀ rl : List Line, (replaceLastNonBlank stamp rl).length = rl.length := by
  intro rl
  induction rl with
  | nil => rfl
  | cons l rest ih =>
    simp only [replaceLastNonBlank]
    split
    · simp [ih]
    · simp

/-- Every line of the replaced array is the stamp or one of the old
lines. -/
theorem mem_replaceLastNonBlank (stamp : Line) :
    ∀ rl : List Line, ∀ p ∈ replaceLastNonBlank stamp rl, p = stamp ∨ p ∈ rl := by
  intro rl
  induction rl with
  | nil => intro p hp; simp [replaceLastNonBlank] at hp
  | cons l rest ih =>
    intro p hp
    simp only [replaceLastNonBlank] at hp
    split at hp
    · rcases List.mem_cons.mp hp with h | h
      · exact Or.inr (by simp [h])
      · rcases ih p h with h' | h'
        · exact Or.inl h'
        · exact Or.inr (List.mem_cons_of_mem l h')
    · rcases List.mem_cons.mp hp with h | h
      · exact Or.inl h
      · exact Or.inr (List.mem_cons_of_mem l h)

/-- A line starting with the marker token is not blank (the token starts
with a non-whitespace character). -/
theorem marker_not_blank {l : Line} (h : isMarkerLine l = true) : isBlankLine l = false := by
  rw [isMarkerLine, List.isPrefixOf_iff_prefix] at h
  obtain ⟨t, rfl⟩ := h
  rfl

/-- The patched array is never empty. -/
theorem patchLines_ne_nil (stamp : Line) (lines : List Line) :
    patchLines stamp lines ≠ [] := by
  rw [patchLines]
  cases hfind : findLastNonBlank lines.reverse with
  | none => simp
  | some m =>
    by_cases hm : isMarkerLine m
    · simp only [hm, if_true]
      intro hcon
      have := congrArg List.length hcon
      simp [length_replaceLastNonBlank] at this
      have h2 := congrArg (fun rl => findLastNonBlank rl) (congrArg List.reverse this)
      simp [findLastNonBlank] at h2
      rw [h2] at hfind
      exact Option.noConfusion hfind
    · simp [hm]

/-- Every line of the patched array is the stamp or one of the original
lines. -/
theorem mem_patchLines (stamp : Line) (lines : List Line) :
    ∀ p ∈ patchLines stamp lines, p = stamp ∨ p ∈ lines := by
  intro p hp
  rw [patchLines] at hp
  cases hfind : findLastNonBlank lines.reverse with
  | none =>
    simp only [hfind] at hp
    rcases List.mem_append.mp hp with h | h
    · exact Or.inr h
    · exact Or.inl (by simpa using h)
  | some m =>
    simp only [hfind] at hp
    by_cases hm : isMarkerLine m
    · rw [if_pos hm] at hp
      rcases mem_replaceLastNonBlank stamp lines.reverse p (List.mem_reverse.mp hp) with h | h
      · exact Or.inl h
      · exact Or.inr (List.mem_reverse.mp h)
    · rw [if_neg hm] at hp
      rcases List.mem_append.mp hp with h | h
      · exact Or.inr h
      · exact Or.inl (by simpa using h)

/-- Replacing the last non-blank line keeps every non-marker line, in
order, when that last non-blank line starts with the marker token. -/
theorem filter_sublist_replaceLastNonBlank (stamp : Line) :
    ∀ rl : List Line, (∀ m, findLastNonBlank rl = some m → isMarkerLine m = true) →
      (rl.filter (fun l => !isMarkerLine l)).Sublist (replaceLastNonBlank stamp rl) := by
  intro rl
  induction rl with
  | nil => simp [replaceLastNonBlank]
  | cons l rest ih =>
    intro h
    by_cases hb : isBlankLine l
    · have hrest : ∀ m, findLastNonBlank rest = some m → isMarkerLine m = true := by
        intro m hm
        exact h m (by rw [findLastNonBlank, if_pos hb]; exact hm)
      have hlm : isMarkerLine l = false := by
        cases hcase : isMarkerLine l with
        | false => rfl
        | true => rw [marker_not_blank hcase] at hb; simp at hb
      simp only [replaceLastNonBlank, if_pos hb, List.filter_cons, hlm]
      simpa using List.Sublist.cons₂ l (ih hrest)
    · have hl : isMarkerLine l = true :=
        h l (by rw [findLastNonBlank, if_neg hb])
      simp only [replaceLastNonBlank, if_neg hb, List.filter_cons, hl]
      simp only [Bool.not_true, Bool.false_eq_true, if_false]
      exact List.Sublist.cons stamp (List.filter_sublist rest)

/-- Because `splitNl` never yields `[]`, `applyStamp` always takes the
else-branch of the dead guard: the result is the patched lines joined
with newlines plus one final newline. -/
theorem applyStamp_eq (s L : String) :
    applyStamp s L
      = ⟨joinNl (patchLines L.data (splitNl (normChars s.data))) ++ ['\n']⟩ := by
  show (if (splitNl (normChars s.data)).length = 0 then (⟨L.data ++ ['\n']⟩ : String)
      else ⟨joinNl (patchLines L.data (splitNl (normChars s.data))) ++ ['\n']⟩) = _
  rw [if_neg (fun h0 => splitNl_ne_nil (normChars s.data) (List.length_eq_zero.mp h0))]

/-! ### Claim C7: content preservation -/

/-- C7: every line of the (newline-normalized) input that does not start
with the marker token appears unchanged and in the same relative order
among the patched lines; the patched document is exactly those lines
joined by newlines plus a final newline; and for a newline-free label,
splitting the output recovers exactly the patched lines (plus the empty
piece after the final newline). -/
theorem applyStamp_content_preservation (d L : String) :
    ((splitNl (normChars d.data)).filter (fun l => !isMarkerLine l)).Sublist
        (patchLines L.data (splitNl (normChars d.data)))
      ∧ applyStamp d L
        = ⟨joinNl (patchLines L.data (splitNl (normChars d.data))) ++ ['\n']⟩
      ∧ ('\n' ∉ L.data →
          splitNl (applyStamp d L).data
            = patchLines L.data (splitNl (normChars d.data)) ++ [[]]) := by
  have h2 := applyStamp_eq d L
  refine ⟨?_, h2, ?_⟩
  · rw [patchLines]
    cases hfind : findLastNonBlank (splitNl (normChars d.data)).reverse with
    | none =>
      simp only [hfind]
      exact (List.filter_sublist _).trans (List.sublist_append_left _ _)
    | some m =>
      simp only [hfind]
      by_cases hm : isMarkerLine m
      · rw [if_pos hm]
        have key := filter_sublist_replaceLastNonBlank L.data
          (splitNl (normChars d.data)).reverse
          (by intro m' hm'; rw [hfind] at hm'; injection hm' with h; rw [← h]; exact hm)
        have key' := key.reverse
        rw [List.filter_reverse] at key'
        simpa using key'
      · rw [if_neg hm]
        exact (List.filter_sublist _).trans (List.sublist_append_left _ _)
  · intro hnl
    rw [h2]
    show splitNl (joinNl (patchLines L.data (splitNl (normChars d.data))) ++ ['\n'])
        = patchLines L.data (splitNl (normChars d.data)) ++ [[]]
    apply splitNl_joinNl
    · exact patchLines_ne_nil _ _
    · intro p hp
      rcases mem_patchLines L.data _ p hp with h | h
      · rw [h]; exact hnl
      · exact not_nl_of_mem_splitNl _ p h

/-! ### Claim C6: the single-marker invariant -/

/-- A blank line does not start with the marker token. -/
theorem blank_not_marker {l : Line} (h : isBlankLine l = true) : isMarkerLine l = false := by
  cases hm : isMarkerLine l with
  | false => rfl
  | true => rw [marker_not_blank hm] at h; exact absurd h (by simp)

/-- The backward scan returns one of the scanned lines. -/
theorem findLastNonBlank_mem : ∀ {rl : List Line} {m : Line},
    findLastNonBlank rl = some m → m ∈ rl := by
  intro rl
  induction rl with
  | nil => intro m h; simp [findLastNonBlank] at h
  | cons l rest ih =>
    intro m h
    rw [findLastNonBlank] at h
    split at h
    · exact List.mem_cons_of_mem l (ih h)
    · injection h with h'; simp [h']

/-- On a tail-marker list the backward scan finds a marker line. -/
theorem findLastNonBlank_of_tailMarker {rl : List Line} (h : TailMarkerRev rl) :
    ∃ m, findLastNonBlank rl = some m ∧ isMarkerLine m = true := by
  induction h with
  | found m rest hm _ =>
    refine ⟨m, ?_, hm⟩
    show (if isBlankLine m = true then findLastNonBlank rest else some m) = some m
    rw [if_neg (by simp [marker_not_blank hm])]
  | blank b rest hb _ ih =>
    obtain ⟨m, hfind, hm⟩ := ih
    refine ⟨m, ?_, hm⟩
    show (if isBlankLine b = true then findLastNonBlank rest else some b) = some m
    rw [if_pos hb, hfind]

/-- A tail-marker list contains exactly one marker line. -/
theorem count_one_of_tailMarker : ∀ {rl : List Line}, TailMarkerRev rl →
    (rl.filter isMarkerLine).length = 1 := by
  intro rl h
  induction h with
  | found m rest hm hrest =>
    have hnil : rest.filter isMarkerLine = [] :=
      List.filter_eq_nil_iff.mpr (fun a ha => by simp [hrest a ha])
    simp [List.filter_cons, hm, hnil]
  | blank b rest hb _ ih =>
    have hbm : isMarkerLine b = false := blank_not_marker hb
    simp [List.filter_cons, hbm, ih]

/-- Replacing the last non-blank line of a tail-marker list by a marker
stamp keeps it a tail-marker list. -/
theorem tailMarker_replace {rl : List Line} (stamp : Line)
    (hstamp : isMarkerLine stamp = true) (h : TailMarkerRev rl) :
    TailMarkerRev (replaceLastNonBlank stamp rl) := by
  induction h with
  | found m rest hm hrest =>
    show TailMarkerRev
      (if isBlankLine m = true then m :: replaceLastNonBlank stamp rest else stamp :: rest)
    rw [if_neg (by simp [marker_not_blank hm])]
    exact .found stamp rest hstamp hrest
  | blank b rest hb _ ih =>
    show TailMarkerRev
      (if isBlankLine b = true then b :: replaceLastNonBlank stamp rest else stamp :: rest)
    rw [if_pos hb]
    exact .blank b _ hb ih

/-- `chopCR` either leaves a line unchanged or removes exactly one
trailing carriage return. -/
theorem chopCR_eq : ∀ p : Line, chopCR p = p ∨ ∃ q, p = q ++ ['\r'] ∧ chopCR p = q
  | [] => Or.inl rfl
  | [c] => by
    by_cases hc : c = '\r'
    · subst hc
      exact Or.inr ⟨[], rfl, by decide⟩
    · exact Or.inl (by simp [chopCR, hc])
  | c :: c2 :: rest => by
    rcases chopCR_eq (c2 :: rest) with h | ⟨q, hq, hc⟩
    · exact Or.inl
        (by rw [show chopCR (c :: c2 :: rest) = c :: chopCR (c2 :: rest) from rfl, h])
    · refine Or.inr ⟨c :: q, ?_, ?_⟩
      · rw [List.cons_append, ← hq]
      · rw [show chopCR (c :: c2 :: rest) = c :: chopCR (c2 :: rest) from rfl, hc]

/-- A marker line that loses its trailing carriage return is still a
marker line (the token itself contains no carriage return). -/
theorem chopCR_marker_of_marker {p : Line} (h : isMarkerLine p = true) :
    isMarkerLine (chopCR p) = true := by
  rcases chopCR_eq p with he | ⟨q, hq, hc⟩
  · rw [he]; exact h
  · rw [hc]
    rw [hq, isMarkerLine, List.isPrefixOf_iff_prefix] at h
    rw [isMarkerLine, List.isPrefixOf_iff_prefix]
    rcases List.prefix_concat_iff.mp h with h1 | h1
    · exfalso
      have hl := congrArg List.getLast? h1
      rw [List.getLast?_concat] at hl
      exact absurd hl (by decide)
    · exact h1

/-- Conversely, a line whose chopped form is a marker line was one
already. -/
theorem marker_of_chopCR_marker {p : Line} (h : isMarkerLine (chopCR p) = true) :
    isMarkerLine p = true := by
  rcases chopCR_eq p with he | ⟨q, hq, hc⟩
  · rw [← he]; exact h
  · rw [hc] at h
    rw [isMarkerLine, List.isPrefixOf_iff_prefix] at h ⊢
    rw [hq]
    exact h.trans (List.prefix_append q ['\r'])

/-- Chopping a trailing carriage return keeps a blank line blank. -/
theorem chopCR_blank {p : Line} (h : isBlankLine p = true) :
    isBlankLine (chopCR p) = true := by
  rcases chopCR_eq p with he | ⟨q, hq, hc⟩
  · rw [he]; exact h
  · rw [hc]
    rw [isBlankLine] at h ⊢
    rw [hq, List.all_append, Bool.and_eq_true] at h
    exact h.1

/-- Chopping a trailing carriage return introduces no newline. -/
theorem chopCR_no_nl {p : Line} (h : '\n' ∉ p) : '\n' ∉ chopCR p := by
  rcases chopCR_eq p with he | ⟨q, hq, hc⟩
  · rw [he]; exact h
  · rw [hc]
    intro hm
    exact h (by rw [hq]; exact List.mem_append.mpr (Or.inl hm))

/-- Normalizing a newline-free piece followed by a newline chops one
trailing carriage return off the piece (the CRLF collapse of source
line 192) and continues behind the separator. -/
theorem normChars_append_nl : ∀ p : Line, '\n' ∉ p →
    ∀ rest : List Char, normChars (p ++ '\n' :: rest) = chopCR p ++ '\n' :: normChars rest
  | [], _, rest => by
    cases rest with
    | nil => rfl
    | cons r rs =>
      show normChars ('\n' :: r :: rs) = '\n' :: normChars (r :: rs)
      rw [show normChars ('\n' :: r :: rs)
          = if '\n' = '\r' ∧ r = '\n' then '\n' :: normChars rs
            else '\n' :: normChars (r :: rs) from rfl]
      rw [if_neg (by simp)]
  | [c], h, rest => by
    show normChars (c :: '\n' :: rest) = chopCR [c] ++ '\n' :: normChars rest
    rw [show normChars (c :: '\n' :: rest)
        = if c = '\r' ∧ '\n' = '\n' then '\n' :: normChars rest
          else c :: normChars ('\n' :: rest) from rfl]
    by_cases hr : c = '\r'
    · rw [if_pos ⟨hr, rfl⟩]
      rw [show chopCR [c] = if c = '\r' then [] else [c] from rfl, if_pos hr]
      rfl
    · rw [if_neg (fun hand => hr hand.1)]
      rw [show chopCR [c] = if c = '\r' then [] else [c] from rfl, if_neg hr]
      rw [show ('\n' :: rest : List Char) = [] ++ '\n' :: rest from rfl,
        normChars_append_nl [] (by simp) rest]
      rfl
  | c :: c2 :: p', h, rest => by
    have hc2 : ¬ c2 = '\n' := fun hh => h (by simp [hh])
    have h2 : '\n' ∉ c2 :: p' := fun hm => h (List.mem_cons_of_mem c hm)
    show normChars (c :: c2 :: (p' ++ '\n' :: rest))
        = chopCR (c :: c2 :: p') ++ '\n' :: normChars rest
    rw [show normChars (c :: c2 :: (p' ++ '\n' :: rest))
        = if c = '\r' ∧ c2 = '\n' then '\n' :: normChars (p' ++ '\n' :: rest)
          else c :: normChars (c2 :: (p' ++ '\n' :: rest)) from rfl]
    rw [if_neg (fun hand => hc2 hand.2)]
    rw [show (c2 :: (p' ++ '\n' :: rest) : List Char) = (c2 :: p') ++ '\n' :: rest from rfl]
    rw [normChars_append_nl (c2 :: p') h2 rest]
    rw [show chopCR (c :: c2 :: p') = c :: chopCR (c2 :: p') from rfl]
    rfl

/-- Normalizing a joined document chops one trailing carriage return off
every line and leaves the line structure intact. -/
theorem normChars_joinNl : ∀ ls : List Line, ls ≠ [] → (∀ p ∈ ls, '\n' ∉ p) →
    normChars (joinNl ls ++ ['\n']) = joinNl (ls.map chopCR) ++ ['\n']
  | [], h, _ => absurd rfl h
  | [l], _, hnl => by
    rw [show joinNl [l] = l from rfl, show (['\n'] : List Char) = '\n' :: [] from rfl,
      normChars_append_nl l (hnl l (by simp)) []]
    rfl
  | l :: l2 :: ls, _, hnl => by
    rw [show joinNl (l :: l2 :: ls) = l ++ '\n' :: joinNl (l2 :: ls) from rfl]
    rw [List.append_assoc, List.cons_append]
    rw [normChars_append_nl l (hnl l (by simp)) (joinNl (l2 :: ls) ++ ['\n'])]
    rw [normChars_joinNl (l2 :: ls) (by simp) (fun p hp => hnl p (List.mem_cons_of_mem l hp))]
    rw [show (l :: l2 :: ls).map chopCR = chopCR l :: (l2 :: ls).map chopCR from rfl]
    rw [show joinNl (chopCR l :: (l2 :: ls).map chopCR)
        = chopCR l ++ '\n' :: joinNl ((l2 :: ls).map chopCR) from rfl]
    simp [List.append_assoc]

/-- Chopping trailing carriage returns preserves the tail-marker shape. -/
theorem tailMarker_map_chopCR {rl : List Line} (h : TailMarkerRev rl) :
    TailMarkerRev (rl.map chopCR) := by
  induction h with
  | found m rest hm hrest =>
    rw [List.map_cons]
    refine .found _ _ (chopCR_marker_of_marker hm) ?_
    intro p hp
    obtain ⟨q, hq, rfl⟩ := List.mem_map.mp hp
    cases hc : isMarkerLine (chopCR q) with
    | false => rfl
    | true => exact absurd (marker_of_chopCR_marker hc) (by simp [hrest q hq])
  | blank b rest hb _ ih =>
    rw [List.map_cons]
    exact .blank _ _ (chopCR_blank hb) ih

/-- On a line list whose last non-blank line is the marker, `patchLines`
takes the replace branch. -/
theorem patchLines_replace_of_tailMarker {ls : List Line} (stamp : Line)
    (htail : TailMarkerRev ls.reverse) :
    patchLines stamp ls = (replaceLastNonBlank stamp ls.reverse).reverse := by
  obtain ⟨m, hfind, hm⟩ := findLastNonBlank_of_tailMarker htail
  rw [patchLines]
  simp only [hfind]
  rw [if_pos hm]

/-- Replacing the marker line of a good line list by a newline-free
marker stamp yields a good line list. -/
theorem goodLines_replace {ls : List Line} (stamp : Line)
    (h : GoodLines ls) (hstamp : isMarkerLine stamp = true) (hnl : '\n' ∉ stamp) :
    GoodLines ((replaceLastNonBlank stamp ls.reverse).reverse) := by
  obtain ⟨hne, hpieces, htail⟩ := h
  refine ⟨?_, ?_, ?_⟩
  · intro hcon
    have hlen := congrArg List.length hcon
    simp [length_replaceLastNonBlank] at hlen
    exact hne hlen
  · intro p hp
    rcases mem_replaceLastNonBlank stamp ls.reverse p (List.mem_reverse.mp hp) with h' | h'
    · rw [h']; exact hnl
    · exact hpieces p (List.mem_reverse.mp h')
  · rw [List.reverse_reverse]
    exact tailMarker_replace stamp hstamp htail

/-- Patching a good line list with a newline-free marker stamp yields a
good line list. -/
theorem goodLines_patchLines {ls : List Line} (stamp : Line)
    (h : GoodLines ls) (hstamp : isMarkerLine stamp = true) (hnl : '\n' ∉ stamp) :
    GoodLines (patchLines stamp ls) := by
  rw [patchLines_replace_of_tailMarker stamp h.2.2]
  exact goodLines_replace stamp h hstamp hnl

/-- Appending the empty piece left by the final newline keeps a line list
good. -/
theorem goodLines_append_empty {ls : List Line} (h : GoodLines ls) :
    GoodLines (ls ++ [[]]) := by
  obtain ⟨hne, hpieces, htail⟩ := h
  refine ⟨by simp, ?_, ?_⟩
  · intro p hp
    rcases List.mem_append.mp hp with h' | h'
    · exact hpieces p h'
    · have hp0 : p = ([] : Line) := by simpa using h'
      rw [hp0]; simp
  · rw [List.reverse_append]
    exact TailMarkerRev.blank [] ls.reverse rfl htail

/-- Chopping trailing carriage returns keeps a line list good. -/
theorem goodLines_map_chopCR {ls : List Line} (h : GoodLines ls) :
    GoodLines (ls.map chopCR) := by
  obtain ⟨hne, hpieces, htail⟩ := h
  refine ⟨by simpa using hne, ?_, ?_⟩
  · intro p hp
    obtain ⟨q, hq, rfl⟩ := List.mem_map.mp hp
    exact chopCR_no_nl (hpieces q hq)
  · rw [← List.map_reverse]
    exact tailMarker_map_chopCR htail

/-- First application: a document whose lines either contain no marker at
all, or whose last non-blank line is the only marker line, becomes a
stamped document. -/
theorem goodDoc_first {d : String} (L : String)
    (hd : (∀ p ∈ splitNl (normChars d.data), isMarkerLine p = false)
        ∨ TailMarkerRev (splitNl (normChars d.data)).reverse)
    (hL : isMarkerLine L.data = true) (hLn : '\n' ∉ L.data) :
    GoodDoc (applyStamp d L) := by
  rcases hd with hnomark | htail
  · have happend : patchLines L.data (splitNl (normChars d.data))
        = splitNl (normChars d.data) ++ [L.data] := by
      rw [patchLines]
      cases hfind : findLastNonBlank (splitNl (normChars d.data)).reverse with
      | none => simp only [hfind]
      | some m =>
        have hmf : isMarkerLine m = false :=
          hnomark m (List.mem_reverse.mp (findLastNonBlank_mem hfind))
        simp only [hfind]
        rw [if_neg (by simp [hmf])]
    refine ⟨splitNl (normChars d.data) ++ [L.data], ?_, by simp, ?_, ?_⟩
    · rw [applyStamp_eq, happend]
    · intro p hp
      rcases List.mem_append.mp hp with h | h
      · exact not_nl_of_mem_splitNl _ p h
      · have hp0 : p = L.data := by simpa using h
        rw [hp0]; exact hLn
    · rw [List.reverse_append]
      exact .found L.data _ hL (fun p hp => hnomark p (List.mem_reverse.mp hp))
  · have hls : GoodLines (splitNl (normChars d.data)) :=
      ⟨splitNl_ne_nil _, fun p hp => not_nl_of_mem_splitNl _ p hp, htail⟩
    refine ⟨patchLines L.data (splitNl (normChars d.data)), ?_,
      goodLines_patchLines L.data hls hL hLn⟩
    rw [applyStamp_eq]

/-- Later applications: a stamped document stays stamped — the re-split
lines are the old ones with one trailing carriage return chopped, their
last non-blank line is still the unique marker, and it is replaced in
place. -/
theorem goodDoc_apply {s : String} (L : String) (hgood : GoodDoc s)
    (hL : isMarkerLine L.data = true) (hLn : '\n' ∉ L.data) :
    GoodDoc (applyStamp s L) := by
  obtain ⟨ls, hdata, hls⟩ := hgood
  have hmap : GoodLines (ls.map chopCR) := goodLines_map_chopCR hls
  have hall : GoodLines (ls.map chopCR ++ [[]]) := goodLines_append_empty hmap
  have hsplit : splitNl (normChars s.data) = ls.map chopCR ++ [[]] := by
    rw [hdata, normChars_joinNl ls hls.1 hls.2.1]
    exact splitNl_joinNl (ls.map chopCR) hmap.1 hmap.2.1
  refine ⟨patchLines L.data (ls.map chopCR ++ [[]]), ?_,
    goodLines_patchLines L.data hall hL hLn⟩
  rw [applyStamp_eq, hsplit]

/-- A stamped document contains exactly one marker line. -/
theorem countMarkerLines_of_goodDoc {s : String} (h : GoodDoc s) :
    countMarkerLines s = 1 := by
  obtain ⟨ls, hdata, hne, hpieces, htail⟩ := h
  rw [countMarkerLines, hdata, splitNl_joinNl ls hne hpieces]
  rw [List.filter_append]
  have h0 : List.filter isMarkerLine [([] : Line)] = [] := rfl
  rw [h0, List.append_nil]
  have hc := count_one_of_tailMarker htail
  rw [List.filter_reverse] at hc
  simpa using hc

/-- Folding marker-prefixed newline-free labels preserves stampedness. -/
theorem goodDoc_fold : ∀ (labels : List String) (s : String), GoodDoc s →
    (∀ L ∈ labels, isMarkerLine L.data = true ∧ '\n' ∉ L.data) →
    GoodDoc (labels.foldl applyStamp s)
  | [], _, hs, _ => hs
  | L :: rest, s, hs, hl => by
    rw [List.foldl_cons]
    exact goodDoc_fold rest (applyStamp s L)
      (goodDoc_apply L hs (hl L (by simp)).1 (hl L (by simp)).2)
      (fun L' h' => hl L' (List.mem_cons_of_mem L h'))

/-- C6 counterexample: the claimed invariant — "for any input document and
any succession of labels the result contains exactly one marker line" —
fails three ways: a label that does not start with the marker token
leaves zero marker lines, a document with a marker line away from its
tail ends up with two, and a label containing a newline can smuggle in a
second marker line. -/
theorem applyStamp_single_marker_counterexample :
    countMarkerLines (applyStamps "" ["x"]) = 0
      ∧ countMarkerLines (applyStamps "本周记录: a\nmiddle\n" ["本周记录: b"]) = 2
      ∧ countMarkerLines (applyStamps "" ["本周记录: a\n本周记录: b"]) = 2 := by
  decide

/-- C6 amended: for every document whose lines (after newline
normalization) either contain no marker line at all or have their last
non-blank line as the only marker line — in particular any already
stamped document, CRLF or not — and every non-empty succession of labels
that start with the marker token and contain no newline, the final
result contains exactly one line starting with the marker token. -/
theorem applyStamp_single_marker_amended (d : String) (labels : List String)
    (hd : (∀ p ∈ splitNl (normChars d.data), isMarkerLine p = false)
        ∨ TailMarkerRev (splitNl (normChars d.data)).reverse)
    (hlabels : ∀ L ∈ labels, isMarkerLine L.data = true ∧ '\n' ∉ L.data)
    (hne : labels ≠ []) :
    countMarkerLines (applyStamps d labels) = 1 := by
  cases labels with
  | nil => exact absurd rfl hne
  | cons L rest =>
    rw [applyStamps, List.foldl_cons]
    exact countMarkerLines_of_goodDoc
      (goodDoc_fold rest (applyStamp d L)
        (goodDoc_first L hd (hlabels L (by simp)).1 (hlabels L (by simp)).2)
        (fun L' h' => hlabels L' (List.mem_cons_of_mem L h')))

/-- C6 amended, witnessed at an already-stamped CRLF document and two
labels, the first of which even carries a trailing carriage return. -/
theorem applyStamp_single_marker_amended_witness :
    countMarkerLines
        (applyStamps "hello\r\n本周记录: old\r\n" ["本周记录: a\r", "本周记录: b"]) = 1 :=
  applyStamp_single_marker_amended "hello\r\n本周记录: old\r\n"
    ["本周记录: a\r", "本周记录: b"]
    (Or.inr (by
      show TailMarkerRev [[], ("本周记录: old").data, ("hello").data]
      exact .blank [] _ rfl (.found _ _ (by decide) (by decide))))
    (by decide) (by decide)

/-- C10 witnessed at a concrete two-page listing: page 1 full, page 2
short, so the loop stops at page 2 and returns both batches in order. -/
theorem fetchAllRepos_pagination_witness :
    (1 : Nat) ≤ 2
      ∧ fetchAllRepos witnessPageFn 2 = some (.ok (pagesConcat witnessPageFn 2)) :=
  ⟨by decide,
    (fetchAllRepos_pagination witnessPageFn 2 (by decide)
        (fun j h1 h2 => ⟨List.replicate 100 ⟨"o", "r"⟩, by
          have hj : j = 1 := by omega
          rw [hj]
          exact ⟨rfl, by decide⟩⟩)).1
      [⟨"o", "r2"⟩] rfl (by decide)⟩

end WeeklyStamp
